import Mathlib

/-!
Verification development for the Change Management FAQ chatbot
(`server.js`).  The JavaScript core is shallowly embedded: strings are
`String`/`List Char`, JS numbers arising in the scorer are modelled as
`JNum` (a rational or `nan`, since `0/0` in JS is `NaN` and `Math.max`
propagates `NaN`), and the two fixed regular expressions of the source
are hand-compiled into explicit backtracking searches that follow the
JS regex engine's priority order (greedy/lazy/alternation, leftmost
match, `exec` loop with `lastIndex`).
-/

namespace ChatBot

/-- The character class `\s` of JavaScript regular expressions
(whitespace, line terminators, NBSP, BOM and the Unicode space
separators). -/
def jsWsChars : List Char :=
  [' ', '\t', '\n', '\x0b', '\x0c', '\r', '\u00A0', '\u1680',
   '\u2000', '\u2001', '\u2002', '\u2003', '\u2004', '\u2005',
   '\u2006', '\u2007', '\u2008', '\u2009', '\u200A', '\u2028',
   '\u2029', '\u202F', '\u205F', '\u3000', '\uFEFF']

/-- Whether a character matches `\s` (also the set trimmed by
`String.prototype.trim`). -/
def jsWs (c : Char) : Bool := jsWsChars.contains c

/-- Whether a character matches `.` in a regex without the `s` flag:
everything except the four line terminators. -/
def dotChar (c : Char) : Bool :=
  !(c = '\n' || c = '\r' || c = '\u2028' || c = '\u2029')

/-- Length of the maximal `\s*` run at the front of a list (what the
greedy `\s*` consumes before a non-whitespace continuation). -/
def wsRun (l : List Char) : ℕ := (l.takeWhile jsWs).length

/-- Characters removed from the right end by `String.prototype.trim`,
list-level version. -/
def trimEndL (l : List Char) : List Char := (l.reverse.dropWhile jsWs).reverse

/-- List-level `trim`: drop JS whitespace from both ends. -/
def trimL (l : List Char) : List Char := trimEndL (l.dropWhile jsWs)

/-- `String.prototype.trim`. -/
def jsTrim (s : String) : String := String.mk (trimL s.toList)

/-- Leading-segment check used to model `String.includes`. -/
def leadsWith : List Char → List Char → Bool
| [], _ => true
| _ :: _, [] => false
| p :: ps, c :: cs => p = c && leadsWith ps cs

/-- `u.includes(pat)`: `pat` occurs as a contiguous substring of `u`. -/
def hasSub (pat : List Char) : List Char → Bool
| [] => pat.isEmpty
| c :: rest => leadsWith pat (c :: rest) || hasSub pat rest

/-- `str.split(" ")`: split at every single space character, keeping
empty fields; the accumulator holds the current field reversed. -/
def splitSpace : List Char → List Char → List String
| acc, [] => [String.mk acc.reverse]
| acc, c :: cs =>
  if c = ' ' then String.mk acc.reverse :: splitSpace [] cs
  else splitSpace (c :: acc) cs

mutual

/-- `str.split(/\s+/)` while inside a token (fields between maximal
whitespace runs; a leading or trailing run contributes an empty
field, as in JavaScript). -/
def splitWsAux : List Char → List Char → List String
| acc, [] => [String.mk acc.reverse]
| acc, c :: cs =>
  if jsWs c then String.mk acc.reverse :: splitWsSkip cs
  else splitWsAux (c :: acc) cs

/-- `str.split(/\s+/)` while consuming the rest of a whitespace run. -/
def splitWsSkip : List Char → List String
| [] => [""]
| c :: cs => if jsWs c then splitWsSkip cs else splitWsAux [c] cs

end

mutual

/-- `text.split(/\n{2,}/)` while inside a paragraph: a run of two or
more newlines separates fields (the greedy `\n{2,}` eats the whole
run). -/
def splitNNAux : List Char → List Char → List String
| acc, [] => [String.mk acc.reverse]
| acc, [c] => [String.mk (c :: acc).reverse]
| acc, c :: c2 :: cs =>
  if c = '\n' ∧ c2 = '\n' then String.mk acc.reverse :: splitNNSkip cs
  else splitNNAux (c :: acc) (c2 :: cs)

/-- `text.split(/\n{2,}/)` while consuming the remainder of a newline
run. -/
def splitNNSkip : List Char → List String
| [] => [""]
| c :: cs => if c = '\n' then splitNNSkip cs else splitNNAux [c] cs

end

mutual

/-- `str.replace(/\s+/g, " ")` while inside a non-whitespace stretch. -/
def collapseWs : List Char → List Char
| [] => []
| c :: cs => if jsWs c then ' ' :: collapseSkip cs else c :: collapseWs cs

/-- `str.replace(/\s+/g, " ")` while consuming a whitespace run that
was already replaced by a single space. -/
def collapseSkip : List Char → List Char
| [] => []
| c :: cs => if jsWs c then collapseSkip cs else c :: collapseWs cs

end

/-- `str.replace(/[^a-z0-9\s]/g, " ")` (applied after lowercasing in
the source, so only lowercase letters, digits and whitespace
survive). -/
def replaceNonAlnum (l : List Char) : List Char :=
  l.map (fun c =>
    if ('a' ≤ c ∧ c ≤ 'z') ∨ ('0' ≤ c ∧ c ≤ '9') ∨ jsWs c then c else ' ')

/-- `str.toLowerCase()` restricted to ASCII case mapping. -/
def toLowerL (l : List Char) : List Char := l.map Char.toLower

/-- The `STOPWORDS` set of `server.js`. -/
def STOPWORDS : List String :=
  ["the","and","for","with","that","this","from","your","have","will","into","about",
   "after","before","when","what","how","why","who","are","was","were","is","a","an",
   "to","of","in","on","at","by","as","it","or","be","we","you","our","their","there",
   "any","can","do"]

/-- `[...new Set(w)]`: deduplicate keeping the first occurrence. -/
def dedupFirst : List String → List String → List String
| _, [] => []
| seen, x :: xs =>
  if seen.contains x then dedupFirst seen xs
  else x :: dedupFirst (x :: seen) xs

/-- `buildPatternsFromQuestion` of `server.js`: lowercase, strip
non-alphanumerics, split on whitespace, keep tokens longer than 3 that
are not stopwords, dedupe, take 8, and prepend the original question. -/
def buildPatternsFromQuestion (q : String) : List String :=
  let w := (splitWsAux [] (replaceNonAlnum (toLowerL q.toList))).filter
    (fun x => decide (3 < x.length) && !(STOPWORDS.contains x))
  q :: (dedupFirst [] w).take 8

/-- One entry of the knowledge base (`{ q, a, patterns }`). -/
structure QAEntry where
  q : String
  a : String
  patterns : List String
deriving DecidableEq, Repr

/-!
Hand-compiled matcher for the structured-Q/A regex of `server.js`:

  `/(?:^|\n)\s*Q:\s*(.+?)\s*\nA:\s*([\s\S]*?)(?=\nQ:|$)/gi`

The pieces below implement the backtracking search in the priority
order of the JS engine: `matchNLA` is the literal `\nA:` (with the `i`
flag), `searchU` the greedy `\s*` directly before it (longest first),
`searchG` the lazy `(.+?)` (shortest first, one non-line-terminator
character minimum), `searchMid` the greedy `\s*` after `Q:` (longest
first), `findBody` the lazy `([\s\S]*?)` bounded by the lookahead
`(?=\nQ:|$)`, and `scanPos`/`scanFirst`/`execLoop` the leftmost-match
scan of the `exec` loop with the `(?:^|\n)` anchor.
-/

/-- Match the literal `\nA:` (case-insensitive `A`). -/
def matchNLA : List Char → Option (List Char)
| c :: c2 :: c3 :: rest =>
  if c = '\n' ∧ (c2 = 'A' ∨ c2 = 'a') ∧ c3 = ':' then some rest else none
| _ => none

/-- Greedy `\s*\nA:` directly after the lazy question group: try the
longest whitespace run first, backing off one character at a time. -/
def searchU (es : List Char) : ℕ → Option (List Char)
| 0 => matchNLA es
| u + 1 =>
  match matchNLA (es.drop (u + 1)) with
  | some r => some r
  | none => searchU es u

/-- Lazy `(.+?)` followed by `\s*\nA:`: grow the captured group one
character at a time (each new character must match `.`), trying the
continuation after every extension. Returns the capture and the text
after `A:`. -/
def searchG : List Char → List Char → Option (List Char × List Char)
| _, [] => none
| acc, c :: rest =>
  if dotChar c then
    match searchU rest (wsRun rest) with
    | some r => some (acc ++ [c], r)
    | none => searchG (acc ++ [c]) rest
  else none

/-- Greedy `\s*` after `Q:`: try consuming `t` whitespace characters,
longest first, before the lazy question group. -/
def searchMid (cs : List Char) : ℕ → Option (List Char × List Char)
| 0 => searchG [] cs
| t + 1 =>
  match searchG [] (cs.drop (t + 1)) with
  | some r => some r
  | none => searchMid cs t

/-- The lookahead `(?=\nQ:)` (case-insensitive `Q`). -/
def lookQ : List Char → Bool
| c :: c2 :: c3 :: _ => c = '\n' && (c2 = 'Q' || c2 = 'q') && c3 = ':'
| _ => false

/-- Lazy `([\s\S]*?)(?=\nQ:|$)`: the answer capture grows from the
left until the lookahead holds (end of input always satisfies `$`).
Returns the capture and the unconsumed suffix. -/
def findBody : List Char → List Char × List Char
| [] => ([], [])
| c :: cs =>
  if lookQ (c :: cs) then ([], c :: cs)
  else
    let p := findBody cs
    (c :: p.1, p.2)

/-- Attempt a match whose `(?:^|\n)` anchor has already been consumed:
greedy `\s*`, literal `Q:` (case-insensitive), question part, literal
`A:` part, greedy `\s*`, then the lazy answer capture. Returns
(question capture, answer capture, unconsumed suffix). -/
def tryHead (cs : List Char) : Option (List Char × List Char × List Char) :=
  match cs.drop (wsRun cs) with
  | c1 :: c2 :: cs2 =>
    if (c1 = 'Q' ∨ c1 = 'q') ∧ c2 = ':' then
      match searchMid cs2 (wsRun cs2) with
      | some (qc, rest) =>
        let p := findBody (rest.drop (wsRun rest))
        some (qc, p.1, p.2)
      | none => none
    else none
  | _ => none

/-- Scan forward for the first position where the `\n` alternative of
the anchor begins a successful match. -/
def scanPos : List Char → Option (List Char × List Char × List Char)
| [] => none
| c :: cs =>
  if c = '\n' then
    match tryHead cs with
    | some r => some r
    | none => scanPos cs
  else scanPos cs

/-- One `exec`: at the very start of the string the `^` alternative is
tried first; afterwards only `\n`-anchored positions can start a
match. -/
def scanFirst (cs : List Char) (first : Bool) : Option (List Char × List Char × List Char) :=
  if first then
    match tryHead cs with
    | some r => some r
    | none => scanPos cs
  else scanPos cs

/-- The `while ((m = regex.exec(text)) !== null)` loop: collect
(question, answer) captures left to right. `fuel` bounds the number of
iterations; each match consumes at least one character, so
`text.length + 1` suffices. -/
def execLoop : ℕ → List Char → Bool → List (List Char × List Char)
| 0, _, _ => []
| fuel + 1, cs, first =>
  match scanFirst cs first with
  | none => []
  | some (qc, ac, rest) => (qc, ac) :: execLoop fuel rest false

/-- `parseStructuredQA` of `server.js`. -/
def parseStructuredQA (text : String) : List QAEntry :=
  (execLoop (text.toList.length + 1) text.toList true).map (fun p =>
    let q := String.mk (trimL p.1)
    { q := q, a := String.mk (trimL p.2), patterns := buildPatternsFromQuestion q })

/-- The sentence terminators `[\.\?!]` of the label regex in
`parseUnstructured`. -/
def isTerm (c : Char) : Bool := c = '.' || c = '?' || c = '!'

/-- Lazy `(.+?[\.\?!])\s` at a fixed start position: grow the group
minimally; at each step first try to close with a terminator followed
by whitespace, else extend with a `.`-class character. -/
def sentAt : List Char → List Char → Option (List Char)
| acc, c :: c2 :: rest =>
  if acc ≠ [] ∧ isTerm c ∧ jsWs c2 then some (acc.reverse ++ [c])
  else if dotChar c then sentAt (c :: acc) (c2 :: rest)
  else none
| _, _ => none

/-- `p.match(/(.+?[\.\?!])\s/)`: leftmost match of the sentence-label
regex, returning the captured group. -/
def sentSearch : List Char → Option (List Char)
| [] => none
| c :: rest =>
  match sentAt [] (c :: rest) with
  | some g => some g
  | none => sentSearch rest

/-- `parseUnstructured` of `server.js`: split into paragraphs on runs
of two or more newlines, trim, drop empties, label each paragraph by
its first sentence (or the whole paragraph), truncating labels longer
than 120 characters to 117 plus an ellipsis. -/
def parseUnstructured (text : String) : List QAEntry :=
  (((splitNNAux [] text.toList).map jsTrim).filter (fun p => decide (p ≠ ""))).map
    (fun p =>
      let firstL := (sentSearch p.toList).getD p.toList
      let q := if 120 < firstL.length then String.mk (firstL.take 117) ++ "…"
               else String.mk firstL
      { q := q, a := p, patterns := buildPatternsFromQuestion q })

/-- Outcome of the external PDF-extraction collaborator as seen by
`loadPdfKnowledge`: no file, a thrown extraction error, or extracted
text. -/
inductive PdfState where
| missing : PdfState
| unreadable : PdfState
| content : String → PdfState

/-- `loadPdfKnowledge` of `server.js`: empty result when the file is
missing, extraction throws, or the text is blank; otherwise structured
parsing first, then the paragraph fallback capped at 300 entries. -/
def loadPdfKnowledge : PdfState → List QAEntry
| PdfState.missing => []
| PdfState.unreadable => []
| PdfState.content s =>
  let text := jsTrim s
  if text = "" then []
  else
    let structured := parseStructuredQA text
    if structured.length ≠ 0 then structured
    else (parseUnstructured text).take 300

/-- The `fs.watchFile` handler: `KB = await loadPdfKnowledge()` — the
old knowledge base is replaced by whatever the reload returns. -/
def reloadKB (_old : List QAEntry) (st : PdfState) : List QAEntry :=
  loadPdfKnowledge st

/-!
Matcher (client-side `normalize`, `scoreMatch`, `getAnswer`).
JS numbers are modelled by `JNum`: the only NaN source in this code is
`0/0` (a pattern whose normalization has zero words), and `Math.max`
returns NaN whenever an argument is NaN. Non-NaN scores are exact
rationals `hits / wordCount`.
-/

/-- `normalize` of the client script: lowercase, replace
non-alphanumerics by spaces, collapse whitespace runs to single
spaces, trim. -/
def normalize (s : String) : String :=
  String.mk (trimL (collapseWs (replaceNonAlnum (toLowerL s.toList))))

/-- A JS number that is either NaN or an exact rational. -/
inductive JNum where
| nan : JNum
| val : ℚ → JNum
deriving DecidableEq, Repr

/-- `Math.max` on two JS numbers (NaN-propagating). -/
def jmax : JNum → JNum → JNum
| JNum.nan, _ => JNum.nan
| JNum.val _, JNum.nan => JNum.nan
| JNum.val a, JNum.val b => JNum.val (max a b)

/-- `hits / words.length` as a JS division: `0 / 0` is NaN. -/
def jdiv (hits n : ℕ) : JNum :=
  if n = 0 then JNum.nan else JNum.val ((hits : ℚ) / (n : ℚ))

/-- `normalize(p).split(" ").filter(Boolean)`: the words of a
pattern. -/
def normWords (p : String) : List String :=
  (splitSpace [] (normalize p).toList).filter (fun w => decide (w ≠ ""))

/-- `words.filter(w => u.includes(" " + w + " ")).length`: whole-word
hits of pattern words in the padded normalized query. -/
def hitCount (u : List Char) (ws : List String) : ℕ :=
  (ws.filter (fun w => hasSub (' ' :: (w.toList ++ [' '])) u)).length

/-- The padded query `" " + normalize(user) + " "`. -/
def padQuery (user : String) : List Char :=
  ' ' :: ((normalize user).toList ++ [' '])

/-- `scoreMatch` of the client script. -/
def scoreMatch (user : String) (patterns : List String) : JNum :=
  patterns.foldl
    (fun best p =>
      let ws := normWords p
      jmax best (jdiv (hitCount (padQuery user) ws) ws.length))
    (JNum.val 0)

/-- The scan loop of `getAnswer`: `best = {i:-1, s:0}`, update on a
strictly larger score (a NaN score never updates, as `NaN > x` is
false). -/
def bmGo (txt : String) : ℕ → List QAEntry → ℤ × ℚ → ℤ × ℚ
| _, [], b => b
| i, e :: rest, b =>
  bmGo txt (i + 1) rest
    (match scoreMatch txt e.patterns with
     | JNum.nan => b
     | JNum.val s => if b.2 < s then ((i : ℤ), s) else b)

/-- The best (index, score) pair tracked by `getAnswer`. -/
def bestMatch (txt : String) (kb : List QAEntry) : ℤ × ℚ :=
  bmGo txt 0 kb (-1, 0)

/-- `getAnswer` of the client script: on a confident score (strictly
above 0.35) return the matched entry's answer and the score; otherwise
the caller's fallback (modelled as `none`). `Option` also models the
`FAQ[best.i]` lookup. -/
def getAnswer (txt : String) (kb : List QAEntry) : Option (String × ℚ) :=
  let b := bestMatch txt kb
  if 7 / 20 < b.2 then (kb.get? b.1.toNat).map (fun e => (e.a, b.2)) else none

/-!
Spec-side builders used by the round-trip and marker claims.
-/

/-- The document built from synthetic `Q:`/`A:` blocks, one block per
(question, answer) pair, blocks separated by single newlines. -/
def buildDoc : List (String × String) → String
| [] => ""
| [(q, a)] => "Q: " ++ q ++ "\nA: " ++ a
| (q, a) :: p :: rest => "Q: " ++ q ++ "\nA: " ++ a ++ "\n" ++ buildDoc (p :: rest)

/-- Character-level form of `buildDoc`, convenient for induction. -/
def docChars : List (List Char × List Char) → List Char
| [] => []
| [(q, a)] => 'Q' :: ':' :: ' ' :: (q ++ '\n' :: 'A' :: ':' :: ' ' :: a)
| (q, a) :: p :: rest =>
  'Q' :: ':' :: ' ' :: (q ++ '\n' :: 'A' :: ':' :: ' ' :: (a ++ '\n' :: docChars (p :: rest)))

/-- The suffix left unconsumed after a block: empty after the last
block, otherwise the newline and the remaining blocks. -/
def docSep (l : List (List Char × List Char)) : List Char :=
  match l with
  | [] => []
  | _ :: _ => '\n' :: docChars l

/-- The question capture the regex produces for a block whose text
after `Q:` is `F`: normally the trimmed core of `F`; when `F` is all
whitespace the backtracking settles on the single character before the
newline. -/
def capF (F : List Char) : List Char :=
  if F.dropWhile jsWs = [] then [F.getLastD ' '] else trimL F

/-- The side conditions on a block list: every question is `.`-class,
every answer is `.`-class with a non-whitespace character. -/
def goodBlocks (l : List (List Char × List Char)) : Prop :=
  ∀ p ∈ l, (∀ c ∈ p.1, dotChar c = true) ∧
           (∀ c ∈ p.2, dotChar c = true) ∧ (∃ c ∈ p.2, jsWs c = false)

/-- A synthetic question/answer is single-line: no line-terminator
characters (so it lies entirely inside a `.`-matched stretch). -/
def singleLine (s : String) : Bool := s.toList.all dotChar

/-- The string has at least one non-whitespace character. -/
def hasInk (s : String) : Bool := s.toList.any (fun c => !jsWs c)

/-- The string contains no `Q:`/`A:` marker (case-insensitive). -/
def markerFree (s : String) : Bool :=
  !(hasSub ['Q', ':'] s.toList || hasSub ['q', ':'] s.toList ||
    hasSub ['A', ':'] s.toList || hasSub ['a', ':'] s.toList)

/-- `n` copies of the paragraph `x` separated by blank lines
(character-level). -/
def joinRep : ℕ → List Char
| 0 => []
| 1 => ['x']
| n + 2 => 'x' :: '\n' :: '\n' :: joinRep (n + 1)

/-- A document of 301 one-character paragraphs separated by blank
lines — no `Q:` markers, 301 fallback paragraphs. -/
def doc301 : String := String.mk (joinRep 301)

/-!
Helper lemmas about whitespace runs and trimming.
-/

lemma wsRun_cons (c : Char) (l : List Char) :
    wsRun (c :: l) = if jsWs c then wsRun l + 1 else 0 := by
  by_cases h : jsWs c <;> simp [wsRun, List.takeWhile_cons, h]

lemma drop_wsRun (l : List Char) : l.drop (wsRun l) = l.dropWhile jsWs := by
  induction l with
  | nil => rfl
  | cons c cs ih =>
    by_cases h : jsWs c
    · simp [wsRun_cons, h, List.dropWhile_cons, ← ih, wsRun]
    · simp [wsRun_cons, h, List.dropWhile_cons]

lemma wsRun_append_ws (W X : List Char) (hW : ∀ c ∈ W, jsWs c = true) :
    wsRun (W ++ X) = W.length + wsRun X := by
  induction W with
  | nil => simp
  | cons c cs ih =>
    have hc : jsWs c = true := hW c (by simp)
    have : ∀ d ∈ cs, jsWs d = true := fun d hd => hW d (by simp [hd])
    simp [wsRun_cons, hc, ih this]
    omega

lemma wsRun_cons_ink (c : Char) (l : List Char) (h : jsWs c = false) :
    wsRun (c :: l) = 0 := by
  simp [wsRun_cons, h]

lemma wsRun_append_ink (L X : List Char) (hink : ∃ c ∈ L, jsWs c = false) :
    wsRun (L ++ X) = wsRun L ∧ wsRun L < L.length := by
  induction L with
  | nil => simp at hink
  | cons c cs ih =>
    by_cases h : jsWs c
    · obtain ⟨d, hd, hdw⟩ := hink
      have hd' : d ∈ cs := by
        rcases List.mem_cons.mp hd with h1 | h1
        · subst h1; simp [h] at hdw
        · exact h1
      obtain ⟨e1, e2⟩ := ih ⟨d, hd', hdw⟩
      constructor
      · simp [wsRun_cons, h, e1]
      · simp [wsRun_cons, h]; omega
    · constructor <;> simp [wsRun_cons, h, List.length_pos]

lemma dropWhile_append_ink (L X : List Char) (hink : ∃ c ∈ L, jsWs c = false) :
    (L ++ X).dropWhile jsWs = L.dropWhile jsWs ++ X := by
  induction L with
  | nil => simp at hink
  | cons c cs ih =>
    by_cases h : jsWs c
    · obtain ⟨d, hd, hdw⟩ := hink
      have hd' : d ∈ cs := by
        rcases List.mem_cons.mp hd with h1 | h1
        · subst h1; simp [h] at hdw
        · exact h1
      simp [List.dropWhile_cons, h, ih ⟨d, hd', hdw⟩]
    · simp [List.dropWhile_cons, h]

lemma trimEndL_split (y : List Char) :
    y = trimEndL y ++ (y.reverse.takeWhile jsWs).reverse := by
  conv_lhs => rw [← List.reverse_reverse y,
    ← List.takeWhile_append_dropWhile (p := jsWs) (l := y.reverse)]
  rw [List.reverse_append]
  rfl

lemma trimEndL_ws (y : List Char) :
    ∀ c ∈ (y.reverse.takeWhile jsWs).reverse, jsWs c = true := by
  intro c hc
  rw [List.mem_reverse] at hc
  exact List.mem_takeWhile_imp hc

lemma trimEndL_last (y : List Char) (h : trimEndL y ≠ []) :
    ∃ M0 d, trimEndL y = M0 ++ [d] ∧ jsWs d = false := by
  have h2 : y.reverse.dropWhile jsWs ≠ [] := by
    intro h3; apply h; simp [trimEndL, h3]
  obtain ⟨d, T, hdT⟩ := List.exists_cons_of_ne_nil h2
  refine ⟨T.reverse, d, ?_, ?_⟩
  · simp [trimEndL, hdT]
  · have := List.head_dropWhile_not jsWs y.reverse h2
    simpa [hdT] using this

lemma dropWhile_cons_ink (p : Char → Bool) (l : List Char) (c : Char) (t : List Char)
    (h : l.dropWhile p = c :: t) : p c = false := by
  induction l with
  | nil => simp at h
  | cons a l ih =>
    rw [List.dropWhile_cons] at h
    by_cases ha : p a
    · rw [if_pos ha] at h; exact ih h
    · rw [if_neg ha] at h
      have : a = c := by simpa using congrArg List.head? h
      rw [← this]; simpa using ha

lemma trim_decomp (L : List Char) (hink : ∃ c ∈ L, jsWs c = false) :
    ∃ W1 M W2 : List Char,
      L = W1 ++ (M ++ W2) ∧ trimL L = M ∧
      (∀ c ∈ W1, jsWs c = true) ∧ (∀ c ∈ W2, jsWs c = true) ∧
      (∃ m M1, M = m :: M1 ∧ jsWs m = false) ∧
      (∃ M0 d, M = M0 ++ [d] ∧ jsWs d = false) := by
  have hyne : L.dropWhile jsWs ≠ [] := by
    intro h
    obtain ⟨c, hc, hcw⟩ := hink
    have := List.dropWhile_eq_nil_iff.mp h c hc
    simp [this] at hcw
  obtain ⟨m, T, hmT⟩ := List.exists_cons_of_ne_nil hyne
  have hm : jsWs m = false := dropWhile_cons_ink jsWs L m T hmT
  have hsplit := trimEndL_split (L.dropWhile jsWs)
  have hMne : trimEndL (L.dropWhile jsWs) ≠ [] := by
    intro h
    rw [h, List.nil_append] at hsplit
    have hmem : m ∈ (List.takeWhile jsWs (L.dropWhile jsWs).reverse).reverse := by
      rw [← hsplit, hmT]; simp
    have := trimEndL_ws (L.dropWhile jsWs) m hmem
    simp [this] at hm
  obtain ⟨m2, M1, hmM⟩ := List.exists_cons_of_ne_nil hMne
  have hm2 : m2 = m := by
    rw [hmM, hmT] at hsplit
    have := congrArg List.head? hsplit
    simpa using this.symm
  refine ⟨L.takeWhile jsWs, trimEndL (L.dropWhile jsWs),
    (List.takeWhile jsWs (L.dropWhile jsWs).reverse).reverse, ?_, rfl, ?_,
    trimEndL_ws (L.dropWhile jsWs), ⟨m2, M1, hmM, by rw [hm2]; exact hm⟩,
    trimEndL_last (L.dropWhile jsWs) hMne⟩
  · rw [← hsplit, List.takeWhile_append_dropWhile]
  · intro c hc; exact List.mem_takeWhile_imp hc

lemma trimEndL_idem (x : List Char) : trimEndL (trimEndL x) = trimEndL x := by
  simp [trimEndL, List.dropWhile_idempotent]

lemma trimL_dropWhile (a : List Char) : trimL (a.dropWhile jsWs) = trimL a := by
  simp [trimL, List.dropWhile_idempotent]

lemma dropWhile_trimL (x : List Char) : (trimL x).dropWhile jsWs = trimL x := by
  rcases h : trimL x with _ | ⟨m, M1⟩
  · rfl
  · have hyne : x.dropWhile jsWs ≠ [] := by
      intro h2; rw [trimL, h2] at h; simp [trimEndL] at h
    obtain ⟨c, T, hcT⟩ := List.exists_cons_of_ne_nil hyne
    have hc : jsWs c = false := dropWhile_cons_ink jsWs x c T hcT
    have hsplit := trimEndL_split (x.dropWhile jsWs)
    rw [show trimEndL (x.dropWhile jsWs) = trimL x from rfl, h, hcT] at hsplit
    have hcm : c = m := by simpa using congrArg List.head? hsplit
    rw [← hcm]
    simp [List.dropWhile_cons, hc]

lemma trimL_idem (x : List Char) : trimL (trimL x) = trimL x := by
  rw [trimL, dropWhile_trimL]
  rw [show trimL x = trimEndL (x.dropWhile jsWs) from rfl, trimEndL_idem]

/-!
Lemmas about the structured-Q/A backtracking search.
-/

lemma matchNLA_cons_ne (c : Char) (l : List Char) (h : c ≠ '\n') :
    matchNLA (c :: l) = none := by
  rcases l with _ | ⟨c2, l⟩
  · rfl
  rcases l with _ | ⟨c3, l⟩
  · rfl
  · simp [matchNLA, h]

lemma matchNLA_hit (ca : Char) (R : List Char) (hca : ca = 'A' ∨ ca = 'a') :
    matchNLA ('\n' :: ca :: ':' :: R) = some R := by
  rcases hca with h | h <;> simp [matchNLA, h]

lemma searchU_none (es : List Char) (u : ℕ)
    (h : ∀ k ≤ u, matchNLA (es.drop k) = none) : searchU es u = none := by
  induction u with
  | zero => simpa [searchU] using h 0 (le_refl 0)
  | succ n ih =>
    have h1 := h (n + 1) (le_refl _)
    simp [searchU, h1]
    exact ih (fun k hk => h k (by omega))

lemma searchU_inside (D X : List Char) (hink : ∃ c ∈ D, jsWs c = false)
    (hdot : ∀ c ∈ D, dotChar c = true) :
    searchU (D ++ X) (wsRun (D ++ X)) = none := by
  obtain ⟨e1, e2⟩ := wsRun_append_ink D X hink
  rw [e1]
  apply searchU_none
  intro k hk
  have hkD : k < D.length := lt_of_le_of_lt hk e2
  rw [List.drop_append_of_le_length (le_of_lt hkD)]
  have hne : D.drop k ≠ [] := by
    simp [List.drop_eq_nil_iff]
    omega
  obtain ⟨d, t, hdt⟩ := List.exists_cons_of_ne_nil hne
  have hd : d ∈ D := (List.drop_sublist k D).mem (by rw [hdt]; simp)
  have hddot : dotChar d = true := hdot d hd
  have hnl : d ≠ '\n' := by
    intro h2; rw [h2] at hddot; simp [dotChar] at hddot
  rw [hdt, List.cons_append]
  exact matchNLA_cons_ne d _ hnl

lemma searchU_boundary (W2 : List Char) (ca : Char) (R : List Char)
    (hW2 : ∀ c ∈ W2, jsWs c = true) (hca : ca = 'A' ∨ ca = 'a') :
    searchU (W2 ++ '\n' :: ca :: ':' :: R) (W2.length + 1) = some R := by
  have hcanl : ca ≠ '\n' := by rcases hca with h | h <;> simp [h]
  have hstep : matchNLA ((W2 ++ '\n' :: ca :: ':' :: R).drop (W2.length + 1)) = none := by
    have e : (W2 ++ '\n' :: ca :: ':' :: R).drop (W2.length + 1) = ca :: ':' :: R := by
      rw [show W2 ++ '\n' :: ca :: ':' :: R = (W2 ++ ['\n']) ++ ca :: ':' :: R by simp,
        List.drop_left' (by simp)]
    rw [e]
    exact matchNLA_cons_ne ca _ hcanl
  have hhit : matchNLA ((W2 ++ '\n' :: ca :: ':' :: R).drop W2.length) = some R := by
    rw [List.drop_left]
    exact matchNLA_hit ca R hca
  rcases hW : W2.length with _ | n
  · rw [hW] at hstep hhit
    generalize hes : W2 ++ '\n' :: ca :: ':' :: R = es at hstep hhit ⊢
    have hstep2 : matchNLA es.tail = none := by simpa [List.drop_one] using hstep
    simp [searchU, hstep2]
    simpa [searchU] using hhit
  · rw [hW] at hstep hhit
    generalize hes : W2 ++ '\n' :: ca :: ':' :: R = es at hstep hhit ⊢
    simp [searchU, hstep, hhit]

lemma searchG_core (ca : Char) (hca : ca = 'A' ∨ ca = 'a') (W2 R : List Char)
    (hW2 : ∀ c ∈ W2, jsWs c = true) :
    ∀ M acc : List Char, M ≠ [] → (∀ c ∈ M, dotChar c = true) →
      (∃ M0 d, M = M0 ++ [d] ∧ jsWs d = false) →
      searchG acc ((M ++ W2) ++ '\n' :: ca :: ':' :: R) = some (acc ++ M, R) := by
  intro M
  induction M with
  | nil => intro acc h; exact absurd rfl h
  | cons c M' ih =>
    intro acc _ hdot hlast
    have hc : dotChar c = true := hdot c (by simp)
    rcases M' with _ | ⟨c2, M''⟩
    · have e1 : (([c] ++ W2) ++ '\n' :: ca :: ':' :: R) =
          c :: (W2 ++ '\n' :: ca :: ':' :: R) := by simp
      have hrun : wsRun (W2 ++ '\n' :: ca :: ':' :: R) = W2.length + 1 := by
        rw [wsRun_append_ws W2 _ hW2, wsRun_cons, if_pos (by decide : jsWs '\n' = true),
          wsRun_cons_ink ca _ (by rcases hca with h | h <;> simp [h, jsWs, jsWsChars])]
      rw [e1, searchG, if_pos hc, hrun, searchU_boundary W2 ca R hW2 hca]
    · obtain ⟨M0, d, hM0, hd⟩ := hlast
      have hlast' : ∃ N0 d2, c2 :: M'' = N0 ++ [d2] ∧ jsWs d2 = false := by
        rcases M0 with _ | ⟨m0, M0'⟩
        · exact absurd hM0 (by simp)
        · refine ⟨M0', d, ?_, hd⟩
          have := hM0
          rw [List.cons_append] at this
          exact (List.cons.injEq _ _ _ _).mp this |>.2
      have hink' : ∃ x ∈ (c2 :: M''), jsWs x = false := by
        obtain ⟨N0, d2, h1, h2⟩ := hlast'
        exact ⟨d2, by rw [h1]; simp, h2⟩
      have hdot' : ∀ x ∈ (c2 :: M''), dotChar x = true :=
        fun x hx => hdot x (by simp [List.mem_cons] at hx ⊢; tauto)
      have e1 : (((c :: c2 :: M'') ++ W2) ++ '\n' :: ca :: ':' :: R) =
          c :: (((c2 :: M'') ++ W2) ++ '\n' :: ca :: ':' :: R) := by simp
      have e2 : (((c2 :: M'') ++ W2) ++ '\n' :: ca :: ':' :: R) =
          (c2 :: M'') ++ (W2 ++ '\n' :: ca :: ':' :: R) := by simp
      have hfail := searchU_inside (c2 :: M'') (W2 ++ '\n' :: ca :: ':' :: R) hink' hdot'
      rw [e1, searchG, if_pos hc, e2, hfail, ← e2, ih (acc ++ [c]) (by simp) hdot' hlast']
      simp

lemma searchMid_hit (cs : List Char) (t : ℕ) (r : List Char × List Char)
    (h : searchG [] (cs.drop t) = some r) : searchMid cs t = some r := by
  cases t with
  | zero => simpa [searchMid] using h
  | succ n => simp [searchMid, h]

lemma searchMid_block (W1 M W2 R : List Char) (ca : Char) (hca : ca = 'A' ∨ ca = 'a')
    (hW1 : ∀ c ∈ W1, jsWs c = true) (hW2 : ∀ c ∈ W2, jsWs c = true)
    (hM : ∃ m M1, M = m :: M1 ∧ jsWs m = false)
    (hMdot : ∀ c ∈ M, dotChar c = true)
    (hMlast : ∃ M0 d, M = M0 ++ [d] ∧ jsWs d = false) :
    searchMid ((W1 ++ (M ++ W2)) ++ '\n' :: ca :: ':' :: R)
      (wsRun ((W1 ++ (M ++ W2)) ++ '\n' :: ca :: ':' :: R)) = some (M, R) := by
  obtain ⟨m, M1, hm1, hm2⟩ := hM
  have hMne : M ≠ [] := by rw [hm1]; simp
  have e : (W1 ++ (M ++ W2)) ++ '\n' :: ca :: ':' :: R =
      W1 ++ ((M ++ W2) ++ '\n' :: ca :: ':' :: R) := by simp
  have hrun : wsRun ((W1 ++ (M ++ W2)) ++ '\n' :: ca :: ':' :: R) = W1.length := by
    rw [e, wsRun_append_ws W1 _ hW1]
    have h0 : wsRun ((M ++ W2) ++ '\n' :: ca :: ':' :: R) = 0 := by
      rw [hm1]
      simpa using wsRun_cons_ink m _ hm2
    omega
  rw [hrun]
  apply searchMid_hit
  have hdrop : ((W1 ++ (M ++ W2)) ++ '\n' :: ca :: ':' :: R).drop W1.length =
      (M ++ W2) ++ '\n' :: ca :: ':' :: R := by
    rw [e, List.drop_left]
  rw [hdrop]
  simpa using searchG_core ca hca W2 R hW2 M [] hMne hMdot hMlast

lemma matchNLA_notA (c2 : Char) (r : List Char) (h1 : c2 ≠ 'A') (h2 : c2 ≠ 'a') :
    matchNLA ('\n' :: c2 :: ':' :: r) = none := by
  simp [matchNLA, h1, h2]

lemma wsRun_le_get (X : List Char) (n : ℕ) (c : Char)
    (hg : X.get? n = some c) (hc : jsWs c = false) : wsRun X ≤ n := by
  by_contra h
  push_neg at h
  have e1 : (X.takeWhile jsWs ++ X.dropWhile jsWs).get? n = (X.takeWhile jsWs).get? n :=
    List.get?_append h
  rw [List.takeWhile_append_dropWhile, hg] at e1
  have hmem : c ∈ X.takeWhile jsWs := List.get?_mem e1.symm
  have := List.mem_takeWhile_imp hmem
  simp [hc] at this

lemma noNLA_shape (X tail : List Char) (hX : ∀ c ∈ X, c ≠ '\n')
    (htail : tail = [] ∨ ∃ cq r, tail = '\n' :: cq :: ':' :: r ∧ (cq = 'Q' ∨ cq = 'q')) :
    ∀ k, k ≤ wsRun (X ++ tail) → matchNLA ((X ++ tail).drop k) = none := by
  intro k hk
  by_cases hkX : k < X.length
  · rw [List.drop_append_of_le_length (le_of_lt hkX)]
    have hne : X.drop k ≠ [] := by
      simp [List.drop_eq_nil_iff]
      omega
    obtain ⟨d, t, hdt⟩ := List.exists_cons_of_ne_nil hne
    have hd : d ∈ X := (List.drop_sublist k X).mem (by rw [hdt]; simp)
    rw [hdt, List.cons_append]
    exact matchNLA_cons_ne d _ (hX d hd)
  · push_neg at hkX
    rcases htail with h | ⟨cq, r, ht, hcq⟩
    · subst h
      rw [List.append_nil]
      have : X.drop k = [] := by
        simp [List.drop_eq_nil_iff]
        omega
      rw [this]
      rfl
    · subst ht
      have hcqw : jsWs cq = false := by rcases hcq with h | h <;> (rw [h]; decide)
      have hcqnl : cq ≠ '\n' := by rcases hcq with h | h <;> (rw [h]; decide)
      have hgcq : (X ++ '\n' :: cq :: ':' :: r).get? (X.length + 1) = some cq := by
        rw [List.get?_append_right (by omega)]
        simp
      have hub : wsRun (X ++ '\n' :: cq :: ':' :: r) ≤ X.length + 1 :=
        wsRun_le_get _ _ cq hgcq hcqw
      have hdropX : (X ++ '\n' :: cq :: ':' :: r).drop k =
          ('\n' :: cq :: ':' :: r).drop (k - X.length) := by
        obtain ⟨m, hm⟩ : ∃ m, k = X.length + m := ⟨k - X.length, by omega⟩
        subst hm
        rw [List.drop_append]
        congr 1
        omega
      rw [hdropX]
      have hk1 : k - X.length ≤ 1 := by omega
      rcases Nat.le_one_iff_eq_zero_or_eq_one.mp hk1 with h0 | h1
      · rw [h0, List.drop_zero]
        rcases hcq with h | h <;> (rw [h]; exact matchNLA_notA _ r (by decide) (by decide))
      · rw [h1]
        exact matchNLA_cons_ne cq _ hcqnl

lemma searchG_none (L : List Char) :
    ∀ acc, (∀ j, (L.take (j + 1)).all dotChar = true →
      ∀ k, k ≤ wsRun (L.drop (j + 1)) → matchNLA ((L.drop (j + 1)).drop k) = none) →
    searchG acc L = none := by
  induction L with
  | nil => intro acc _; rfl
  | cons c rest ih =>
    intro acc H
    rw [searchG]
    by_cases hc : dotChar c = true
    · rw [if_pos hc]
      have h0 := H 0 (by simpa using hc)
      simp only [List.drop_succ_cons, List.drop_zero] at h0
      rw [searchU_none rest (wsRun rest) h0]
      apply ih
      intro j hj k hk
      have h1 := H (j + 1) ?_ k ?_
      · simpa [List.drop_succ_cons] using h1
      · rw [List.take_succ_cons, List.all_cons]
        simp [hc, hj]
      · simpa [List.drop_succ_cons] using hk
    · rw [if_neg hc]

lemma lookQ_shape (t : List Char) (h : lookQ t = true) :
    ∃ cq r, t = '\n' :: cq :: ':' :: r ∧ (cq = 'Q' ∨ cq = 'q') := by
  rcases t with _ | ⟨c, t⟩
  · simp [lookQ] at h
  rcases t with _ | ⟨c2, t⟩
  · simp [lookQ] at h
  rcases t with _ | ⟨c3, t⟩
  · simp [lookQ] at h
  simp [lookQ] at h
  obtain ⟨⟨h1, h2⟩, h3⟩ := h
  exact ⟨c2, t, by rw [h1, h3], h2⟩

lemma searchMid_allws (F G tail : List Char) (ca : Char) (hca : ca = 'A' ∨ ca = 'a')
    (hF : ∀ c ∈ F, jsWs c = true ∧ dotChar c = true) (hFne : F ≠ [])
    (hG : ∀ c ∈ G, c ≠ '\n')
    (htail : tail = [] ∨ ∃ cq r, tail = '\n' :: cq :: ':' :: r ∧ (cq = 'Q' ∨ cq = 'q')) :
    searchMid (F ++ '\n' :: ca :: ':' :: (G ++ tail))
      (wsRun (F ++ '\n' :: ca :: ':' :: (G ++ tail))) =
      some ([F.getLastD ' '], G ++ tail) := by
  rcases List.eq_nil_or_concat F with h | ⟨F0, d, hF0⟩
  · exact absurd h hFne
  rw [List.concat_eq_append] at hF0
  have hcanw : jsWs ca = false := by rcases hca with h | h <;> (rw [h]; decide)
  have hcannl : ca ≠ '\n' := by rcases hca with h | h <;> (rw [h]; decide)
  have hT : wsRun (F ++ '\n' :: ca :: ':' :: (G ++ tail)) = F.length + 1 := by
    rw [wsRun_append_ws F _ (fun c hc => (hF c hc).1), wsRun_cons,
      if_pos (by decide : jsWs '\n' = true), wsRun_cons_ink ca _ hcanw]
  rw [hT]
  have hfail1 : searchG []
      ((F ++ '\n' :: ca :: ':' :: (G ++ tail)).drop (F.length + 1)) = none := by
    have e : (F ++ '\n' :: ca :: ':' :: (G ++ tail)).drop (F.length + 1) =
        ca :: ':' :: (G ++ tail) := by
      rw [show F ++ '\n' :: ca :: ':' :: (G ++ tail) =
        (F ++ ['\n']) ++ ca :: ':' :: (G ++ tail) by simp, List.drop_left' (by simp)]
    rw [e]
    apply searchG_none
    intro j hj k hk
    have e2 : ca :: ':' :: (G ++ tail) = (ca :: ':' :: G) ++ tail := by simp
    rw [e2] at hk ⊢
    have hXnl : ∀ c ∈ ca :: ':' :: G, c ≠ '\n' := by
      intro c hcmem
      rcases List.mem_cons.mp hcmem with h1 | h1
      · rw [h1]; exact hcannl
      rcases List.mem_cons.mp h1 with h2 | h2
      · rw [h2]; decide
      · exact hG c h2
    by_cases hjlen : j + 1 ≤ (ca :: ':' :: G).length
    · rw [List.drop_append_of_le_length hjlen] at hk ⊢
      have hX' : ∀ c ∈ (ca :: ':' :: G).drop (j + 1), c ≠ '\n' :=
        fun c hcm => hXnl c ((List.drop_sublist _ _).mem hcm)
      exact noNLA_shape _ tail hX' htail k hk
    · push_neg at hjlen
      rcases htail with h | ⟨cq, r, ht, hcq⟩
      · subst h
        rw [List.append_nil] at hk ⊢
        have hX' : ∀ c ∈ (ca :: ':' :: G).drop (j + 1), c ≠ '\n' :=
          fun c hcm => hXnl c ((List.drop_sublist _ _).mem hcm)
        have := noNLA_shape ((ca :: ':' :: G).drop (j + 1)) [] hX' (Or.inl rfl) k
        rw [List.append_nil] at this
        exact this hk
      · exfalso
        subst ht
        have hget : (((ca :: ':' :: G) ++ '\n' :: cq :: ':' :: r).take (j + 1)).get?
            (ca :: ':' :: G).length = some '\n' := by
          rw [List.get?_take (by omega)]
          rw [List.get?_append_right (le_refl _)]
          simp
        have hmem : '\n' ∈ ((ca :: ':' :: G) ++ '\n' :: cq :: ':' :: r).take (j + 1) :=
          List.get?_mem hget
        have := List.all_eq_true.mp hj _ hmem
        simp [dotChar] at this
  have hfail2 : searchG []
      ((F ++ '\n' :: ca :: ':' :: (G ++ tail)).drop F.length) = none := by
    rw [List.drop_left]
    rw [searchG]
    rw [if_neg (by decide : ¬ dotChar '\n' = true)]
  have hhit : searchG []
      ((F ++ '\n' :: ca :: ':' :: (G ++ tail)).drop F0.length) =
      some ([d], G ++ tail) := by
    have e : (F ++ '\n' :: ca :: ':' :: (G ++ tail)).drop F0.length =
        d :: '\n' :: ca :: ':' :: (G ++ tail) := by
      rw [hF0, show (F0 ++ [d]) ++ '\n' :: ca :: ':' :: (G ++ tail) =
        F0 ++ (d :: '\n' :: ca :: ':' :: (G ++ tail)) by simp, List.drop_left]
    rw [e, searchG]
    have hd : dotChar d = true := (hF d (by rw [hF0]; simp)).2
    rw [if_pos hd]
    have hrun : wsRun ('\n' :: ca :: ':' :: (G ++ tail)) = 1 := by
      rw [wsRun_cons, if_pos (by decide : jsWs '\n' = true), wsRun_cons_ink ca _ hcanw]
    rw [hrun]
    have hu : searchU ('\n' :: ca :: ':' :: (G ++ tail)) 1 = some (G ++ tail) := by
      have hstep : matchNLA (ca :: ':' :: (G ++ tail)) = none :=
        matchNLA_cons_ne ca _ hcannl
      simp [searchU, hstep, matchNLA_hit ca (G ++ tail) hca]
    rw [hu]
    simp
  have hlen : F.length = F0.length + 1 := by rw [hF0]; simp
  rw [hlen] at hfail1 hfail2 ⊢
  have hcap : F.getLastD ' ' = d := by rw [hF0]; simp [List.getLastD_concat]
  rw [hcap]
  have s1 : searchMid (F ++ '\n' :: ca :: ':' :: (G ++ tail)) (F0.length + 1 + 1) =
      searchMid (F ++ '\n' :: ca :: ':' :: (G ++ tail)) (F0.length + 1) := by
    rw [searchMid, hfail1]
  have s2 : searchMid (F ++ '\n' :: ca :: ':' :: (G ++ tail)) (F0.length + 1) =
      searchMid (F ++ '\n' :: ca :: ':' :: (G ++ tail)) F0.length := by
    rw [searchMid, hfail2]
  rw [s1, s2]
  exact searchMid_hit _ _ _ hhit

lemma lookQ_cons_ne (c : Char) (l : List Char) (h : c ≠ '\n') : lookQ (c :: l) = false := by
  rcases l with _ | ⟨c2, l⟩
  · rfl
  rcases l with _ | ⟨c3, l⟩
  · rfl
  · simp [lookQ, h]

lemma lookQ_hit (cq : Char) (l : List Char) (hcq : cq = 'Q' ∨ cq = 'q') :
    lookQ ('\n' :: cq :: ':' :: l) = true := by
  rcases hcq with h | h <;> simp [lookQ, h]

lemma findBody_run (G tail : List Char) (hG : ∀ c ∈ G, c ≠ '\n')
    (ht : tail = [] ∨ lookQ tail = true) :
    findBody (G ++ tail) = (G, tail) := by
  induction G with
  | nil =>
    rcases ht with h | h
    · simp [h, findBody]
    · rcases tail with _ | ⟨c, cs⟩
      · simp [findBody]
      · simp [findBody, h]
  | cons c G' ih =>
    have hc : c ≠ '\n' := hG c (by simp)
    have hlq : lookQ (c :: (G' ++ tail)) = false := lookQ_cons_ne c _ hc
    simp [findBody, hlq, ih (fun x hx => hG x (by simp [hx]))]

lemma trimL_capF (F : List Char) : trimL (capF F) = trimL F := by
  by_cases h : F.dropWhile jsWs = []
  · rw [capF, if_pos h]
    have hw : jsWs (F.getLastD ' ') = true := by
      rcases List.eq_nil_or_concat F with h2 | ⟨F0, d, h2⟩
      · rw [h2]; decide
      · rw [List.concat_eq_append] at h2
        have hmem : d ∈ F := by rw [h2]; simp
        rw [h2, List.getLastD_concat]
        exact List.dropWhile_eq_nil_iff.mp h d hmem
    have h1 : trimL F = [] := by rw [trimL, h]; rfl
    have h2 : List.dropWhile jsWs [F.getLastD ' '] = [] := by
      rw [List.dropWhile_cons, if_pos hw]
      rfl
    rw [h1, trimL, h2]
    rfl
  · rw [capF, if_neg h]
    exact trimL_idem F

lemma tryHead_block (W F G tail : List Char) (cq ca : Char)
    (hW : ∀ c ∈ W, jsWs c = true)
    (hcq : cq = 'Q' ∨ cq = 'q') (hca : ca = 'A' ∨ ca = 'a')
    (hF : ∀ c ∈ F, dotChar c = true) (hFne : F ≠ [])
    (hG : ∀ c ∈ G, c ≠ '\n') (hGink : ∃ c ∈ G, jsWs c = false)
    (htail : tail = [] ∨ lookQ tail = true) :
    tryHead (W ++ cq :: ':' :: (F ++ '\n' :: ca :: ':' :: (G ++ tail))) =
      some (capF F, G.dropWhile jsWs, tail) := by
  have hcqw : jsWs cq = false := by
    rcases hcq with h | h <;> (rw [h]; decide)
  have hrun : wsRun (W ++ cq :: ':' :: (F ++ '\n' :: ca :: ':' :: (G ++ tail))) = W.length := by
    rw [wsRun_append_ws W _ hW, wsRun_cons_ink cq _ hcqw]
    omega
  have hdrop : (W ++ cq :: ':' :: (F ++ '\n' :: ca :: ':' :: (G ++ tail))).drop W.length =
      cq :: ':' :: (F ++ '\n' :: ca :: ':' :: (G ++ tail)) := List.drop_left _ _
  have hmid : searchMid (F ++ '\n' :: ca :: ':' :: (G ++ tail))
      (wsRun (F ++ '\n' :: ca :: ':' :: (G ++ tail))) = some (capF F, G ++ tail) := by
    by_cases hink : F.dropWhile jsWs = []
    · have hFws : ∀ c ∈ F, jsWs c = true := List.dropWhile_eq_nil_iff.mp hink
      have htail2 : tail = [] ∨
          ∃ cq2 r, tail = '\n' :: cq2 :: ':' :: r ∧ (cq2 = 'Q' ∨ cq2 = 'q') := by
        rcases htail with h | h
        · exact Or.inl h
        · exact Or.inr (lookQ_shape tail h)
      rw [capF, if_pos hink]
      exact searchMid_allws F G tail ca hca (fun c hc => ⟨hFws c hc, hF c hc⟩)
        hFne hG htail2
    · have hFink : ∃ c ∈ F, jsWs c = false := by
        obtain ⟨c, t, hct⟩ := List.exists_cons_of_ne_nil hink
        exact ⟨c, (List.dropWhile_sublist jsWs).mem (by rw [hct]; simp),
          dropWhile_cons_ink jsWs F c t hct⟩
      obtain ⟨W1, M, W2, hFdec, hFtrim, hW1, hW2, hMhead, hMlast⟩ := trim_decomp F hFink
      have hMdot : ∀ c ∈ M, dotChar c = true := by
        intro c hc; apply hF; rw [hFdec]; simp [hc]
      rw [capF, if_neg hink, hFtrim, hFdec]
      exact searchMid_block W1 M W2 (G ++ tail) ca hca hW1 hW2 hMhead hMdot hMlast
  have hwsG := wsRun_append_ink G tail hGink
  have hdropG : (G ++ tail).drop (wsRun (G ++ tail)) = G.dropWhile jsWs ++ tail := by
    rw [hwsG.1, List.drop_append_of_le_length (le_of_lt hwsG.2), drop_wsRun]
  have hbody : findBody ((G ++ tail).drop (wsRun (G ++ tail))) = (G.dropWhile jsWs, tail) := by
    rw [hdropG]
    exact findBody_run _ tail
      (fun x hx => hG x ((List.dropWhile_sublist jsWs).mem hx)) htail
  rw [tryHead, hrun, hdrop]
  simp only []
  rw [if_pos (⟨hcq, trivial⟩ : (cq = 'Q' ∨ cq = 'q') ∧ True), hmid]
  simp [hbody]

/-!
The `exec` loop on documents made of well-formed blocks.
-/

lemma docChars_cons (q a : List Char) (rest : List (List Char × List Char)) :
    docChars ((q, a) :: rest) =
      'Q' :: ':' :: ' ' :: (q ++ '\n' :: 'A' :: ':' :: ' ' :: (a ++ docSep rest)) := by
  cases rest with
  | nil => simp [docChars, docSep]
  | cons p rest' => simp [docChars, docSep]

lemma docSep_cons (x : List Char × List Char) (xs : List (List Char × List Char)) :
    docSep (x :: xs) = '\n' :: docChars (x :: xs) := rfl

lemma docSep_shape (l : List (List Char × List Char)) :
    docSep l = [] ∨ lookQ (docSep l) = true := by
  cases l with
  | nil => exact Or.inl rfl
  | cons p rest =>
    right
    rcases p with ⟨q, a⟩
    show lookQ ('\n' :: docChars ((q, a) :: rest)) = true
    rw [docChars_cons]
    exact lookQ_hit 'Q' _ (Or.inl rfl)

lemma docChars_length_ge (l : List (List Char × List Char)) :
    l.length ≤ (docChars l).length := by
  induction l with
  | nil => simp [docChars]
  | cons p rest ih =>
    rcases p with ⟨q, a⟩
    rw [docChars_cons]
    rcases rest with _ | ⟨p2, rest'⟩
    · simp [docSep]
    · show _ ≤ (_ :: _ :: _ :: (q ++ '\n' :: 'A' :: ':' :: ' ' :: (a ++ '\n' :: docChars (p2 :: rest')))).length
      have := ih
      simp only [List.length_cons, List.length_append] at this ⊢
      omega

lemma singleLine_iff (s : String) : singleLine s = true ↔ ∀ c ∈ s.toList, dotChar c = true := by
  simp [singleLine, List.all_eq_true]

lemma hasInk_iff (s : String) : hasInk s = true ↔ ∃ c ∈ s.toList, jsWs c = false := by
  simp [hasInk, List.any_eq_true]

lemma dot_ne_nl (c : Char) (h : dotChar c = true) : c ≠ '\n' := by
  intro h2; rw [h2] at h; simp [dotChar] at h

lemma trimL_cons_sp (x : List Char) : trimL (' ' :: x) = trimL x := by
  simp [trimL, List.dropWhile_cons, show jsWs ' ' = true by decide]

lemma tryHead_docChars (q a : List Char) (rest : List (List Char × List Char))
    (hqdot : ∀ c ∈ q, dotChar c = true)
    (hadot : ∀ c ∈ a, dotChar c = true) (haink : ∃ c ∈ a, jsWs c = false) :
    tryHead (docChars ((q, a) :: rest)) =
      some (capF (' ' :: q), a.dropWhile jsWs, docSep rest) := by
  have e : docChars ((q, a) :: rest) =
      [] ++ 'Q' :: ':' :: ((' ' :: q) ++ '\n' :: 'A' :: ':' :: ((' ' :: a) ++ docSep rest)) := by
    rw [docChars_cons]; simp
  rw [e]
  have hq' : ∀ c ∈ (' ' :: q), dotChar c = true := by
    intro c hc
    rcases List.mem_cons.mp hc with h | h
    · rw [h]; decide
    · exact hqdot c h
  have ha' : ∀ c ∈ (' ' :: a), c ≠ '\n' := by
    intro c hc
    rcases List.mem_cons.mp hc with h | h
    · rw [h]; decide
    · exact dot_ne_nl c (hadot c h)
  have ha2' : ∃ c ∈ (' ' :: a), jsWs c = false := by
    obtain ⟨c, hc, hcw⟩ := haink
    exact ⟨c, List.mem_cons_of_mem _ hc, hcw⟩
  rw [tryHead_block [] (' ' :: q) (' ' :: a) (docSep rest) 'Q' 'A'
    (by simp) (Or.inl rfl) (Or.inl rfl) hq' (by simp) ha' ha2' (docSep_shape rest)]
  have e3 : (' ' :: a).dropWhile jsWs = a.dropWhile jsWs := by
    simp [List.dropWhile_cons, show jsWs ' ' = true by decide]
  rw [e3]

lemma execLoop_nil (n : ℕ) (b : Bool) : execLoop n [] b = [] := by
  cases n with
  | zero => rfl
  | succ m => cases b <;> simp [execLoop, scanFirst, scanPos, tryHead, wsRun, matchNLA]

lemma execLoop_docSep (l : List (List Char × List Char)) (hl : goodBlocks l) :
    ∀ fuel, l.length + 1 ≤ fuel →
      execLoop fuel (docSep l) false =
        l.map (fun p => (capF (' ' :: p.1), p.2.dropWhile jsWs)) := by
  induction l with
  | nil =>
    intro fuel hf
    simpa [docSep] using execLoop_nil fuel false
  | cons p rest ih =>
    intro fuel hf
    rcases fuel with _ | f
    · omega
    rcases p with ⟨q, a⟩
    obtain ⟨h1, h2, h3⟩ := hl (q, a) (by simp)
    have hth := tryHead_docChars q a rest h1 h2 h3
    have e : docSep ((q, a) :: rest) = '\n' :: docChars ((q, a) :: rest) := rfl
    rw [e, execLoop]
    simp [scanFirst, scanPos, hth]
    exact ih (fun p hp => hl p (by simp [hp])) f (by simp at hf; omega)

lemma execLoop_doc (l : List (List Char × List Char)) (hne : l ≠ []) (hl : goodBlocks l) :
    ∀ fuel, (docChars l).length + 1 ≤ fuel →
      execLoop fuel (docChars l) true =
        l.map (fun p => (capF (' ' :: p.1), p.2.dropWhile jsWs)) := by
  intro fuel hf
  rcases l with _ | ⟨⟨q, a⟩, rest⟩
  · exact absurd rfl hne
  rcases fuel with _ | f
  · omega
  obtain ⟨h1, h2, h3⟩ := hl (q, a) (by simp)
  have hth := tryHead_docChars q a rest h1 h2 h3
  rw [execLoop]
  simp [scanFirst, hth]
  rw [execLoop_docSep rest (fun p hp => hl p (by simp [hp])) f ?_]
  have hlen : (docChars ((q, a) :: rest)).length + 1 ≤ f + 1 := hf
  have hsep : rest.length ≤ (docSep rest).length := by
    cases rest with
    | nil => simp [docSep]
    | cons p2 rest' =>
      show _ ≤ ('\n' :: docChars (p2 :: rest')).length
      have := docChars_length_ge (p2 :: rest')
      simp only [List.length_cons] at this ⊢
      omega
  rw [docChars_cons] at hlen
  simp only [List.length_cons, List.length_append] at hlen hsep ⊢
  omega

lemma toList_append (s t : String) : (s ++ t).toList = s.toList ++ t.toList :=
  String.data_append s t

lemma buildDoc_toList (l : List (String × String)) :
    (buildDoc l).toList = docChars (l.map (fun p => (p.1.toList, p.2.toList))) := by
  induction l with
  | nil => rfl
  | cons p rest ih =>
    rcases p with ⟨q, a⟩
    rcases rest with _ | ⟨p2, rest'⟩
    · show ("Q: " ++ q ++ "\nA: " ++ a).toList = _
      simp only [List.map_cons, List.map_nil, toList_append]
      rw [docChars_cons]
      simp [docSep]
    · show ("Q: " ++ q ++ "\nA: " ++ a ++ "\n" ++ buildDoc (p2 :: rest')).toList = _
      simp only [List.map_cons, toList_append]
      rw [docChars_cons, ih, docSep_cons]
      have e1 : "Q: ".toList = ['Q', ':', ' '] := rfl
      have e2 : "\nA: ".toList = ['\n', 'A', ':', ' '] := rfl
      have e3 : "\n".toList = ['\n'] := rfl
      simp [e1, e2, e3, List.map_cons]

/-!
Claim C6 (round-trip) and claim C3 (marker matching).
-/

/-- C6 counterexample: the claim as stated is false — with the
whitespace-only (hence non-empty, marker-free, single-line) answer
`" "` in the first block, the greedy `\s*` after `A:` swallows the
newline before the next `Q:` marker, the `(?=\nQ:|$)` lookahead can
only be satisfied at end of input, and the two blocks merge: the
2-block document parses to 1 entry, not 2. -/
theorem C6_counterexample :
    (parseStructuredQA (buildDoc [("x", " "), ("y", "z")])).length = 1 ∧
    ¬ (parseStructuredQA (buildDoc [("x", " "), ("y", "z")])).length = 2 := by
  constructor <;> decide

/-- C6 (amended): for every non-empty sequence of synthetic
single-line questions and answers, each containing at least one
non-whitespace character (and no `Q:`/`A:` markers), `parseStructuredQA`
applied to the document built from the `Q:`/`A:` blocks yields exactly
one entry per block, whose label and body are the trimmed question and
answer. -/
theorem C6_round_trip (l : List (String × String)) (hne : l ≠ [])
    (h : ∀ p ∈ l, singleLine p.1 = true ∧ markerFree p.1 = true ∧
                  singleLine p.2 = true ∧ hasInk p.2 = true ∧ markerFree p.2 = true) :
    parseStructuredQA (buildDoc l) =
      l.map (fun p => { q := jsTrim p.1, a := jsTrim p.2,
                        patterns := buildPatternsFromQuestion (jsTrim p.1) }) := by
  unfold parseStructuredQA
  rw [buildDoc_toList]
  have hne' : l.map (fun p => (p.1.toList, p.2.toList)) ≠ [] := by
    simpa using hne
  have hgood : goodBlocks (l.map (fun p => (p.1.toList, p.2.toList))) := by
    intro p hp
    obtain ⟨orig, ho, heq⟩ := List.mem_map.mp hp
    obtain ⟨hs1, _, hs2, hi2, _⟩ := h orig ho
    rw [← heq]
    exact ⟨(singleLine_iff orig.1).mp hs1,
      (singleLine_iff orig.2).mp hs2, (hasInk_iff orig.2).mp hi2⟩
  rw [execLoop_doc _ hne' hgood _ (le_refl _), List.map_map, List.map_map]
  apply List.map_congr_left
  intro p _
  simp [Function.comp, jsTrim, trimL_capF, trimL_cons_sp, trimL_dropWhile]

/-- C3 counterexample: the claim as stated is false — in a document
whose `Q:` and `A:` markers both carry leading whitespace on their
lines, no block is emitted: the regex requires the literal `\nA:` with
the answer marker at the very start of its line. -/
theorem C3_counterexample : parseStructuredQA " Q: x\n A: y" = [] := by decide

/-- C3 (amended): the question marker is matched case-insensitively
and tolerates any leading whitespace at the start of the document, and
the answer marker is matched case-insensitively; but the answer marker
must stand at the very start of its line (leading whitespace before
`A:` prevents the block from being emitted, and leading whitespace
before a later `Q:` marker keeps the preceding block's lookahead from
terminating). A single block with lowercase markers, leading
whitespace before `q:`, and none before `a:` is parsed. -/
theorem C3_marker_matching (w q a : String)
    (hw : w.toList.all jsWs = true)
    (hq1 : singleLine q = true)
    (ha1 : singleLine a = true) (ha2 : hasInk a = true) :
    parseStructuredQA (w ++ "q: " ++ q ++ "\na: " ++ a) =
      [{ q := jsTrim q, a := jsTrim a,
         patterns := buildPatternsFromQuestion (jsTrim q) }] := by
  unfold parseStructuredQA
  have e : (w ++ "q: " ++ q ++ "\na: " ++ a).toList =
      w.toList ++ 'q' :: ':' ::
        ((' ' :: q.toList) ++ '\n' :: 'a' :: ':' :: ((' ' :: a.toList) ++ [])) := by
    simp only [toList_append]
    have e1 : "q: ".toList = ['q', ':', ' '] := rfl
    have e2 : "\na: ".toList = ['\n', 'a', ':', ' '] := rfl
    rw [e1, e2]
    simp
  rw [e]
  have hqdot : ∀ c ∈ (' ' :: q.toList), dotChar c = true := by
    intro c hc
    rcases List.mem_cons.mp hc with h1 | h1
    · rw [h1]; decide
    · exact (singleLine_iff q).mp hq1 c h1
  have hanl : ∀ c ∈ (' ' :: a.toList), c ≠ '\n' := by
    intro c hc
    rcases List.mem_cons.mp hc with h1 | h1
    · rw [h1]; decide
    · exact dot_ne_nl c ((singleLine_iff a).mp ha1 c h1)
  have haink : ∃ c ∈ (' ' :: a.toList), jsWs c = false := by
    obtain ⟨c, hc, hcw⟩ := (hasInk_iff a).mp ha2
    exact ⟨c, List.mem_cons_of_mem _ hc, hcw⟩
  have hth := tryHead_block w.toList (' ' :: q.toList) (' ' :: a.toList) [] 'q' 'a'
    (by simpa [List.all_eq_true] using hw) (Or.inr rfl) (Or.inr rfl)
    hqdot (by simp) hanl haink (Or.inl rfl)
  have e3 : (' ' :: a.toList).dropWhile jsWs = a.toList.dropWhile jsWs := by
    simp [List.dropWhile_cons, show jsWs ' ' = true by decide]
  rw [execLoop]
  simp only [List.cons_append, List.append_assoc, List.append_nil, List.nil_append] at hth
  have hdata : String.toList = String.data := rfl
  rw [hdata] at hth e3
  simp [scanFirst, hth, execLoop_nil, e3, jsTrim, trimL_capF, trimL_cons_sp,
    trimL_dropWhile]

/-!
Matcher lemmas (claims C1, C5, C9, C10).
-/

lemma hitCount_le (u : List Char) (ws : List String) : hitCount u ws ≤ ws.length :=
  List.length_filter_le _ ws

lemma scoreFold_bounds (user : String) :
    ∀ (ps : List String) (b : ℚ), (∀ p ∈ ps, normWords p ≠ []) → 0 ≤ b → b ≤ 1 →
      ∃ s : ℚ,
        ps.foldl (fun best p =>
          let ws := normWords p
          jmax best (jdiv (hitCount (padQuery user) ws) ws.length)) (JNum.val b) =
          JNum.val s ∧ 0 ≤ s ∧ s ≤ 1 := by
  intro ps
  induction ps with
  | nil => intro b hp h0 h1; exact ⟨b, rfl, h0, h1⟩
  | cons p ps ih =>
    intro b hp h0 h1
    have hpne : normWords p ≠ [] := hp p (by simp)
    have hn : (normWords p).length ≠ 0 := by
      simpa [List.length_eq_zero] using hpne
    have hnpos : (0 : ℚ) < ((normWords p).length : ℚ) := by
      exact_mod_cast Nat.pos_of_ne_zero hn
    have hx0 : (0 : ℚ) ≤ (hitCount (padQuery user) (normWords p) : ℚ) /
        ((normWords p).length : ℚ) := by positivity
    have hx1 : (hitCount (padQuery user) (normWords p) : ℚ) /
        ((normWords p).length : ℚ) ≤ 1 := by
      rw [div_le_one hnpos]
      exact_mod_cast hitCount_le (padQuery user) (normWords p)
    rw [List.foldl_cons]
    have estep : (let ws := normWords p
        jmax (JNum.val b) (jdiv (hitCount (padQuery user) ws) ws.length)) =
        JNum.val (max b ((hitCount (padQuery user) (normWords p) : ℚ) /
          ((normWords p).length : ℚ))) := by
      simp [jmax, jdiv, hn]
    rw [estep]
    exact ih _ (fun p2 h2 => hp p2 (by simp [h2]))
      (le_trans h0 (le_max_left _ _)) (max_le h1 hx1)

/-- C1 counterexample: the claim as stated is false — on the pattern
`"???"`, whose normalization has zero words, the JS division `0/0`
yields `NaN` and `Math.max` propagates it, so `scoreMatch` returns
`NaN` rather than a value in `[0,1]` (coverage is not treated as 0). -/
theorem C1_counterexample : scoreMatch "hello" ["???"] = JNum.nan := by decide

/-- C1 (amended): whenever every pattern normalizes to at least one
word, `scoreMatch` returns a rational in `[0,1]`; a pattern with zero
normalized words instead makes the whole score `NaN`. -/
theorem C1_score_unit_interval (user : String) (patterns : List String)
    (h : ∀ p ∈ patterns, normWords p ≠ []) :
    ∃ s : ℚ, scoreMatch user patterns = JNum.val s ∧ 0 ≤ s ∧ s ≤ 1 :=
  scoreFold_bounds user patterns 0 h le_rfl zero_le_one

/-- C1 witness. -/
theorem C1_witness :
    (∀ p ∈ ["hello"], normWords p ≠ []) ∧
    ∃ s : ℚ, scoreMatch "hi" ["hello"] = JNum.val s ∧ 0 ≤ s ∧ s ≤ 1 :=
  ⟨by decide, C1_score_unit_interval "hi" ["hello"] (by decide)⟩

/-- C9: hit counting is whole-word only — if the padded normalized
query does not contain `" cat "` as a substring (e.g. it contains
"category" but not the standalone word "cat"), the pattern word "cat"
contributes zero hits and the pattern list `["cat"]` scores 0. -/
theorem C9_whole_word (query : String)
    (hcat : hasSub "category".toList (normalize query).toList = true)
    (hno : hasSub " cat ".toList (padQuery query) = false) :
    hitCount (padQuery query) ["cat"] = 0 ∧ scoreMatch query ["cat"] = JNum.val 0 := by
  have hpad : (' ' :: ("cat".toList ++ [' '])) = " cat ".toList := rfl
  have h0 : hitCount (padQuery query) ["cat"] = 0 := by
    have hno2 : hasSub [' ', 'c', 'a', 't', ' '] (padQuery query) = false := hno
    simp [hitCount, hno2]
  refine ⟨h0, ?_⟩
  have hw : normWords "cat" = ["cat"] := by decide
  have e : scoreMatch query ["cat"] =
      jmax (JNum.val 0) (jdiv (hitCount (padQuery query) (normWords "cat"))
        (normWords "cat").length) := rfl
  rw [e, hw, h0]
  simp [jdiv, jmax]

/-- C9 witness. -/
theorem C9_witness :
    hasSub "category".toList (normalize "category").toList = true ∧
    hasSub " cat ".toList (padQuery "category") = false ∧
    hitCount (padQuery "category") ["cat"] = 0 ∧
    scoreMatch "category" ["cat"] = JNum.val 0 := by
  refine ⟨by decide, by decide, ?_, ?_⟩
  · exact (C9_whole_word "category" (by decide) (by decide)).1
  · exact (C9_whole_word "category" (by decide) (by decide)).2

lemma bmGo_mono (txt : String) :
    ∀ (l : List QAEntry) (i : ℕ) (b : ℤ × ℚ), b.2 ≤ (bmGo txt i l b).2 := by
  intro l
  induction l with
  | nil => intro i b; simp [bmGo]
  | cons e rest ih =>
    intro i b
    rcases hsc : scoreMatch txt e.patterns with _ | s
    · have e1 : bmGo txt i (e :: rest) b = bmGo txt (i + 1) rest b := by
        simp [bmGo, hsc]
      rw [e1]; exact ih (i + 1) b
    · by_cases hlt : b.2 < s
      · have e1 : bmGo txt i (e :: rest) b = bmGo txt (i + 1) rest ((i : ℤ), s) := by
          simp [bmGo, hsc, hlt]
        rw [e1]
        exact le_trans (le_of_lt hlt) (ih (i + 1) ((i : ℤ), s))
      · have e1 : bmGo txt i (e :: rest) b = bmGo txt (i + 1) rest b := by
          simp [bmGo, hsc, hlt]
        rw [e1]; exact ih (i + 1) b

lemma bmGo_ub (txt : String) :
    ∀ (l : List QAEntry) (i : ℕ) (b : ℤ × ℚ) (j : ℕ) (e : QAEntry) (s : ℚ),
      l.get? j = some e → scoreMatch txt e.patterns = JNum.val s →
      s ≤ (bmGo txt i l b).2 := by
  intro l
  induction l with
  | nil => intro i b j e s hj; simp at hj
  | cons e0 rest ih =>
    intro i b j e s hj hs
    cases j with
    | zero =>
      simp at hj
      subst hj
      have e1 : bmGo txt i (e0 :: rest) b =
          bmGo txt (i + 1) rest (if b.2 < s then ((i : ℤ), s) else b) := by
        simp [bmGo, hs]
      rw [e1]
      by_cases hlt : b.2 < s
      · rw [if_pos hlt]
        simpa using bmGo_mono txt rest (i + 1) ((i : ℤ), s)
      · rw [if_neg hlt]
        push_neg at hlt
        exact le_trans hlt (bmGo_mono txt rest (i + 1) b)
    | succ j' =>
      exact ih (i + 1) _ j' e s hj hs

lemma bmGo_prov (txt : String) :
    ∀ (l : List QAEntry) (i : ℕ) (b : ℤ × ℚ),
      bmGo txt i l b = b ∨
      ∃ j e, l.get? j = some e ∧ (bmGo txt i l b).1 = (i : ℤ) + j ∧
        scoreMatch txt e.patterns = JNum.val (bmGo txt i l b).2 ∧
        b.2 < (bmGo txt i l b).2 ∧
        ∀ k e2 s, k < j → l.get? k = some e2 →
          scoreMatch txt e2.patterns = JNum.val s → s < (bmGo txt i l b).2 := by
  intro l
  induction l with
  | nil => intro i b; left; rfl
  | cons e0 rest ih =>
    intro i b
    rcases hsc : scoreMatch txt e0.patterns with _ | s0
    · have e1 : bmGo txt i (e0 :: rest) b = bmGo txt (i + 1) rest b := by
        simp [bmGo, hsc]
      rw [e1]
      rcases ih (i + 1) b with h | ⟨j, e2, hj, hidx, hsc1, hlt, hfirst⟩
      · left; exact h
      · right
        refine ⟨j + 1, e2, hj, ?_, hsc1, hlt, ?_⟩
        · rw [hidx]; push_cast; ring
        · intro k e3 s hk hke hse
          cases k with
          | zero =>
            have : e0 = e3 := by simpa using hke
            rw [← this, hsc] at hse
            exact absurd hse (by simp)
          | succ k' =>
            exact hfirst k' e3 s (by omega) hke hse
    · by_cases hlt : b.2 < s0
      · have e1 : bmGo txt i (e0 :: rest) b = bmGo txt (i + 1) rest ((i : ℤ), s0) := by
          simp [bmGo, hsc, hlt]
        rw [e1]
        rcases ih (i + 1) ((i : ℤ), s0) with h | ⟨j, e2, hj, hidx, hsc1, hlt1, hfirst⟩
        · right
          refine ⟨0, e0, by simp, ?_, ?_, ?_, ?_⟩
          · rw [h]; simp
          · rw [h]; exact hsc
          · rw [h]; exact hlt
          · intro k e3 s hk; omega
        · right
          refine ⟨j + 1, e2, hj, ?_, hsc1, lt_trans hlt hlt1, ?_⟩
          · rw [hidx]; push_cast; ring
          · intro k e3 s hk hke hse
            cases k with
            | zero =>
              have he : e0 = e3 := by simpa using hke
              rw [← he, hsc] at hse
              have : s = s0 := by simpa using hse.symm
              rw [this]
              exact hlt1
            | succ k' =>
              exact hfirst k' e3 s (by omega) hke hse
      · have e1 : bmGo txt i (e0 :: rest) b = bmGo txt (i + 1) rest b := by
          simp [bmGo, hsc, hlt]
        rw [e1]
        push_neg at hlt
        rcases ih (i + 1) b with h | ⟨j, e2, hj, hidx, hsc1, hlt1, hfirst⟩
        · left; exact h
        · right
          refine ⟨j + 1, e2, hj, ?_, hsc1, hlt1, ?_⟩
          · rw [hidx]; push_cast; ring
          · intro k e3 s hk hke hse
            cases k with
            | zero =>
              have he : e0 = e3 := by simpa using hke
              rw [← he, hsc] at hse
              have : s = s0 := by simpa using hse.symm
              rw [this]
              exact lt_of_le_of_lt hlt hlt1
            | succ k' =>
              exact hfirst k' e3 s (by omega) hke hse

lemma bestMatch_valid (txt : String) (kb : List QAEntry)
    (h : 7 / 20 < (bestMatch txt kb).2) :
    0 ≤ (bestMatch txt kb).1 ∧ (bestMatch txt kb).1.toNat < kb.length := by
  rcases bmGo_prov txt kb 0 (-1, 0) with h0 | ⟨j, e, hj, hidx, _, _, _⟩
  · rw [bestMatch, h0] at h
    norm_num at h
  · rw [bestMatch] at h ⊢
    rw [hidx]
    have hjlen : j < kb.length := by
      rcases List.get?_eq_some.mp hj with ⟨hlt, _⟩
      exact hlt
    constructor
    · positivity
    · simpa using hjlen

lemma getAnswer_confident (txt : String) (kb : List QAEntry)
    (h : 7 / 20 < (bestMatch txt kb).2) :
    getAnswer txt kb =
      (kb.get? (bestMatch txt kb).1.toNat).map
        (fun e => (e.a, (bestMatch txt kb).2)) := by
  simp [getAnswer, h]

lemma getAnswer_low (txt : String) (kb : List QAEntry)
    (h : ¬ 7 / 20 < (bestMatch txt kb).2) : getAnswer txt kb = none := by
  simp [getAnswer, h]

/-- C10: whenever the answer-selection step takes the confident branch
(best score strictly above 0.35), the tracked best index is a valid
index into the knowledge base, so the entry lookup never misses. -/
theorem C10_confident_index_valid (txt : String) (kb : List QAEntry)
    (h : 7 / 20 < (bestMatch txt kb).2) :
    0 ≤ (bestMatch txt kb).1 ∧ (bestMatch txt kb).1.toNat < kb.length ∧
    (getAnswer txt kb).isSome = true := by
  obtain ⟨h1, h2⟩ := bestMatch_valid txt kb h
  refine ⟨h1, h2, ?_⟩
  rw [getAnswer_confident txt kb h]
  rcases hget : kb.get? (bestMatch txt kb).1.toNat with _ | e
  · rw [List.get?_eq_none] at hget
    omega
  · simp

lemma scoreMatch_hello : scoreMatch "hello" ["hello"] = JNum.val 1 := by
  have hw : normWords "hello" = ["hello"] := by decide
  have hc : hitCount (padQuery "hello") ["hello"] = 1 := by decide
  have e : scoreMatch "hello" ["hello"] =
      jmax (JNum.val 0) (jdiv (hitCount (padQuery "hello") (normWords "hello"))
        (normWords "hello").length) := rfl
  rw [e, hw, hc]
  have h11 : ((1 : ℚ)) / ((1 : ℕ) : ℚ) = 1 := by norm_num
  simp [jdiv, jmax, h11]

lemma bestMatch_hello :
    bestMatch "hello" [(⟨"hello", "world", ["hello"]⟩ : QAEntry)] = (0, 1) := by
  simp [bestMatch, bmGo, scoreMatch_hello]

/-- C10 witness. -/
theorem C10_witness :
    (7 / 20 : ℚ) < (bestMatch "hello" [(⟨"hello", "world", ["hello"]⟩ : QAEntry)]).2 ∧
    0 ≤ (bestMatch "hello" [(⟨"hello", "world", ["hello"]⟩ : QAEntry)]).1 ∧
    (bestMatch "hello" [(⟨"hello", "world", ["hello"]⟩ : QAEntry)]).1.toNat <
      ([(⟨"hello", "world", ["hello"]⟩ : QAEntry)] : List QAEntry).length ∧
    (getAnswer "hello" [(⟨"hello", "world", ["hello"]⟩ : QAEntry)]).isSome = true := by
  have hlt : (7 / 20 : ℚ) <
      (bestMatch "hello" [(⟨"hello", "world", ["hello"]⟩ : QAEntry)]).2 := by
    rw [bestMatch_hello]; norm_num
  refine ⟨hlt, ?_⟩
  have h := C10_confident_index_valid "hello"
    [(⟨"hello", "world", ["hello"]⟩ : QAEntry)] hlt
  exact ⟨h.1, h.2.1, h.2.2⟩

/-- C5: the best-match scan keeps the entry with the strictly highest
score, ties keep the lowest index, the confident branch is taken
exactly when the best score exceeds 0.35, and an empty knowledge base
yields index -1 with score 0 and the fallback answer. -/
theorem C5_best_match_selection (txt : String) (kb : List QAEntry) :
    (kb = [] → bestMatch txt kb = (-1, 0) ∧ getAnswer txt kb = none) ∧
    (∀ j e s, kb.get? j = some e → scoreMatch txt e.patterns = JNum.val s →
        s ≤ (bestMatch txt kb).2) ∧
    (∀ j e, kb.get? j = some e → (bestMatch txt kb).1 = (j : ℤ) →
        scoreMatch txt e.patterns = JNum.val (bestMatch txt kb).2 ∧
        ∀ k e2 s, k < j → kb.get? k = some e2 →
          scoreMatch txt e2.patterns = JNum.val s → s < (bestMatch txt kb).2) ∧
    ((getAnswer txt kb).isSome = true ↔ 7 / 20 < (bestMatch txt kb).2) ∧
    (7 / 20 < (bestMatch txt kb).2 →
        getAnswer txt kb =
          (kb.get? (bestMatch txt kb).1.toNat).map
            (fun e => (e.a, (bestMatch txt kb).2))) := by
  refine ⟨?_, ?_, ?_, ?_, getAnswer_confident txt kb⟩
  · intro hkb
    subst hkb
    constructor
    · rfl
    · apply getAnswer_low
      norm_num [bestMatch, bmGo]
  · intro j e s hj hs
    exact bmGo_ub txt kb 0 (-1, 0) j e s hj hs
  · intro j e hj hidx
    rcases bmGo_prov txt kb 0 (-1, 0) with h0 | ⟨j0, e0, hj0, hidx0, hsc0, hlt0, hfirst0⟩
    · rw [bestMatch] at hidx
      rw [h0] at hidx
      simp at hidx
    · rw [bestMatch] at hidx ⊢
      have hjj : j0 = j := by
        rw [hidx] at hidx0
        simpa using hidx0.symm
      subst hjj
      have hee : e0 = e := by
        rw [hj0] at hj
        simpa using hj
      subst hee
      exact ⟨hsc0, fun k e2 s hk hke hse => hfirst0 k e2 s hk hke hse⟩
  · constructor
    · intro hs
      by_contra hbig
      rw [getAnswer_low txt kb hbig] at hs
      simp at hs
    · intro hbig
      exact (C10_confident_index_valid txt kb hbig).2.2

/-- C5 witness. -/
theorem C5_witness :
    ((([] : List QAEntry) = []) →
      bestMatch "x" [] = (-1, 0) ∧ getAnswer "x" [] = none) ∧
    (∀ j e s, ([] : List QAEntry).get? j = some e →
      scoreMatch "x" e.patterns = JNum.val s → s ≤ (bestMatch "x" []).2) ∧
    (∀ j e, ([] : List QAEntry).get? j = some e → (bestMatch "x" []).1 = (j : ℤ) →
        scoreMatch "x" e.patterns = JNum.val (bestMatch "x" []).2 ∧
        ∀ k e2 s, k < j → ([] : List QAEntry).get? k = some e2 →
          scoreMatch "x" e2.patterns = JNum.val s → s < (bestMatch "x" []).2) ∧
    ((getAnswer "x" ([] : List QAEntry)).isSome = true ↔
      7 / 20 < (bestMatch "x" ([] : List QAEntry)).2) ∧
    (7 / 20 < (bestMatch "x" ([] : List QAEntry)).2 →
        getAnswer "x" ([] : List QAEntry) =
          (([] : List QAEntry).get? (bestMatch "x" []).1.toNat).map
            (fun e => (e.a, (bestMatch "x" []).2))) :=
  C5_best_match_selection "x" []

/-!
Claim C7: shape of `buildPatternsFromQuestion`.
-/

lemma mem_dedupFirst : ∀ (l seen : List String) (x : String),
    x ∈ dedupFirst seen l → x ∈ l ∧ ¬ x ∈ seen := by
  intro l
  induction l with
  | nil => intro seen x h; simp [dedupFirst] at h
  | cons y ys ih =>
    intro seen x h
    rw [dedupFirst] at h
    by_cases hy : seen.contains y
    · rw [if_pos hy] at h
      obtain ⟨h1, h2⟩ := ih seen x h
      exact ⟨by simp [h1], h2⟩
    · rw [if_neg hy] at h
      rcases List.mem_cons.mp h with h1 | h1
      · subst h1
        exact ⟨by simp, by simpa using hy⟩
      · obtain ⟨h2, h3⟩ := ih (y :: seen) x h1
        refine ⟨by simp [h2], fun hc => h3 (by simp [hc])⟩

lemma dedupFirst_nodup : ∀ (l seen : List String), (dedupFirst seen l).Nodup := by
  intro l
  induction l with
  | nil => intro seen; simp [dedupFirst]
  | cons y ys ih =>
    intro seen
    rw [dedupFirst]
    by_cases hy : seen.contains y
    · rw [if_pos hy]; exact ih seen
    · rw [if_neg hy]
      refine List.nodup_cons.mpr ⟨?_, ih (y :: seen)⟩
      intro hmem
      exact (mem_dedupFirst ys (y :: seen) y hmem).2 (by simp)

/-- C7: `buildPatternsFromQuestion` returns the original question
verbatim as the first element, followed by at most 8 keywords with no
duplicates among them; the result length is between 1 and 9. -/
theorem C7_build_patterns_shape (q : String) :
    (buildPatternsFromQuestion q).head? = some q ∧
    (buildPatternsFromQuestion q).tail.length ≤ 8 ∧
    (buildPatternsFromQuestion q).tail.Nodup ∧
    1 ≤ (buildPatternsFromQuestion q).length ∧
    (buildPatternsFromQuestion q).length ≤ 9 := by
  have e : buildPatternsFromQuestion q = q :: (dedupFirst []
      ((splitWsAux [] (replaceNonAlnum (toLowerL q.toList))).filter
        (fun x => decide (3 < x.length) && !(STOPWORDS.contains x)))).take 8 := rfl
  rw [e]
  refine ⟨rfl, ?_, ?_, by simp, ?_⟩
  · simp [List.length_take]
  · simp only [List.tail_cons]
    exact (dedupFirst_nodup _ _).sublist (List.take_sublist _ _)
  · simp only [List.length_cons, List.length_take]
    have := min_le_left 8 ((dedupFirst []
      ((splitWsAux [] (replaceNonAlnum (toLowerL q.toList))).filter
        (fun x => decide (3 < x.length) && !(STOPWORDS.contains x)))).length)
    omega

/-!
Claim C4: non-emptiness of entries from the two strategies.
-/

lemma String_ne_empty_of_data (s : String) (h : s.data ≠ []) : s ≠ "" := by
  intro h2
  rw [h2] at h
  exact h rfl

lemma sentAt_some_ne_nil : ∀ (l acc g : List Char), sentAt acc l = some g → g ≠ [] := by
  intro l
  induction l with
  | nil => intro acc g h; simp [sentAt] at h
  | cons c rest ih =>
    intro acc g h
    rcases rest with _ | ⟨c2, rest2⟩
    · simp [sentAt] at h
    · rw [sentAt] at h
      by_cases h1 : acc ≠ [] ∧ isTerm c = true ∧ jsWs c2 = true
      · rw [if_pos h1] at h
        have : acc.reverse ++ [c] = g := by simpa using h
        rw [← this]
        simp
      · rw [if_neg h1] at h
        by_cases h2 : dotChar c = true
        · rw [if_pos h2] at h
          exact ih (c :: acc) g h
        · rw [if_neg h2] at h
          simp at h

lemma sentSearch_some_ne_nil : ∀ (l g : List Char), sentSearch l = some g → g ≠ [] := by
  intro l
  induction l with
  | nil => intro g h; simp [sentSearch] at h
  | cons c rest ih =>
    intro g h
    rw [sentSearch] at h
    rcases hs : sentAt [] (c :: rest) with _ | g2
    · rw [hs] at h
      exact ih g h
    · rw [hs] at h
      have : g2 = g := by simpa using h
      rw [← this]
      exact sentAt_some_ne_nil (c :: rest) [] g2 hs

/-- C4 counterexample: the claim as stated is false for the structured
strategy — on `"Q: x\nA:"` it emits an entry with an empty body. -/
theorem C4_counterexample :
    ¬ (∀ e ∈ parseStructuredQA "Q: x\nA:", e.q ≠ "" ∧ e.a ≠ "") := by decide

/-- C4 (amended): every entry produced by the fallback segmentation
strategy has a non-empty label and a non-empty body; the structured
strategy only trims its captures and can emit empty labels or
bodies. -/
theorem C4_fallback_entries_nonempty (text : String) :
    ∀ e ∈ parseUnstructured text, e.q ≠ "" ∧ e.a ≠ "" := by
  intro e he
  unfold parseUnstructured at he
  obtain ⟨p, hp, hpe⟩ := List.mem_map.mp he
  have hpne : p ≠ "" := by simpa using List.of_mem_filter hp
  have hfne : ((sentSearch p.toList).getD p.toList) ≠ [] := by
    rcases hs : sentSearch p.toList with _ | g
    · simp only [hs, Option.getD_none]
      intro h
      apply hpne
      cases p
      simp [String.toList] at h
      simp [h]
    · simp only [hs, Option.getD_some]
      exact sentSearch_some_ne_nil p.toList g hs
  rw [← hpe]
  constructor
  · by_cases hlen : 120 < ((sentSearch p.toList).getD p.toList).length
    · simp only [hlen, if_true]
      apply String_ne_empty_of_data
      simp
    · simp only [hlen, if_false]
      apply String_ne_empty_of_data
      simpa using hfne
  · exact hpne

/-- C4 witness. -/
theorem C4_witness :
    (⟨"Hi there.", "Hi there.", ["Hi there."]⟩ : QAEntry) ∈
      parseUnstructured "Hi there." ∧
    ("Hi there." : String) ≠ "" := by
  have hm : (⟨"Hi there.", "Hi there.", ["Hi there."]⟩ : QAEntry) ∈
      parseUnstructured "Hi there." := by decide
  exact ⟨hm, (C4_fallback_entries_nonempty "Hi there." _ hm).1⟩

/-!
Claim C2: reload semantics.
-/

/-- C2 counterexample: the claim as stated is false — a failed reload
does not leave the previous knowledge base in place; the watch handler
assigns the result of `loadPdfKnowledge`, which is `[]` on failure. -/
theorem C2_counterexample :
    reloadKB [(⟨"q1", "a1", ["p1"]⟩ : QAEntry)] PdfState.unreadable ≠
      [(⟨"q1", "a1", ["p1"]⟩ : QAEntry)] := by decide

/-- C2 (amended): if a reload fails (missing file, extraction error)
or yields no text, the knowledge base is replaced by the empty
sequence, discarding the previously loaded entries. -/
theorem C2_reload_replaces_with_empty (old : List QAEntry) :
    reloadKB old PdfState.unreadable = [] ∧
    reloadKB old PdfState.missing = [] ∧
    ∀ s : String, jsTrim s = "" → reloadKB old (PdfState.content s) = [] := by
  refine ⟨rfl, rfl, ?_⟩
  intro s hs
  simp [reloadKB, loadPdfKnowledge, hs]

/-- C2 witness. -/
theorem C2_witness :
    reloadKB [(⟨"q1", "a1", ["p1"]⟩ : QAEntry)] PdfState.unreadable = [] ∧
    reloadKB [(⟨"q1", "a1", ["p1"]⟩ : QAEntry)] PdfState.missing = [] ∧
    jsTrim "  " = "" ∧
    reloadKB [(⟨"q1", "a1", ["p1"]⟩ : QAEntry)] (PdfState.content "  ") = [] := by
  obtain ⟨h1, h2, h3⟩ := C2_reload_replaces_with_empty [(⟨"q1", "a1", ["p1"]⟩ : QAEntry)]
  exact ⟨h1, h2, by decide, h3 "  " (by decide)⟩

/-!
Claim C8: the 300-entry cap of the fallback strategy.
-/

/-- C8: on a document with no structured blocks that splits into 301
or more fallback paragraphs, the loaded knowledge base has exactly 300
entries. -/
theorem C8_fallback_cap (s : String)
    (hq : parseStructuredQA (jsTrim s) = [])
    (hn : 301 ≤ (parseUnstructured (jsTrim s)).length) :
    (loadPdfKnowledge (PdfState.content s)).length = 300 := by
  have hne : jsTrim s ≠ "" := by
    intro h
    rw [h] at hn
    have h0 : (parseUnstructured "").length = 0 := by decide
    omega
  simp only [loadPdfKnowledge]
  rw [if_neg hne, hq]
  simp only [List.length_nil, ne_eq, not_true_eq_false, if_false]
  rw [List.length_take]
  omega

set_option maxRecDepth 100000 in
/-- C8 witness: the 301-paragraph document. -/
theorem C8_witness :
    parseStructuredQA (jsTrim doc301) = [] ∧
    301 ≤ (parseUnstructured (jsTrim doc301)).length ∧
    (loadPdfKnowledge (PdfState.content doc301)).length = 300 := by
  have h1 : parseStructuredQA (jsTrim doc301) = [] := by decide
  have h2 : 301 ≤ (parseUnstructured (jsTrim doc301)).length := by decide
  exact ⟨h1, h2, C8_fallback_cap doc301 h1 h2⟩

/-- C3 witness. -/
theorem C3_witness :
    parseStructuredQA (" " ++ "q: " ++ "Hello" ++ "\na: " ++ "World") =
      [{ q := jsTrim "Hello", a := jsTrim "World",
         patterns := buildPatternsFromQuestion (jsTrim "Hello") }] :=
  C3_marker_matching " " "Hello" "World" (by decide) (by decide) (by decide)
    (by decide)

/-- C6 witness. -/
theorem C6_witness :
    parseStructuredQA (buildDoc [("Alpha one?", "Beta two."), ("Gamma?", "Delta.")]) =
      [("Alpha one?", "Beta two."), ("Gamma?", "Delta.")].map (fun p =>
        { q := jsTrim p.1, a := jsTrim p.2,
          patterns := buildPatternsFromQuestion (jsTrim p.1) }) :=
  C6_round_trip [("Alpha one?", "Beta two."), ("Gamma?", "Delta.")]
    (by decide) (by decide)

end ChatBot
